import Mathlib

/-!
# Verification of the TaskMate slot-packing scheduler

Shallow embedding of `smart_scheduler.py` (the core slot-packing algorithm).

Modelling conventions:
* A timestamp (`datetime`) is an `Int`: minutes since midnight of the call day
  (`now` has day index `now / 1440`; values may cross midnight, as with the
  personal six-hour window).  Every timestamp the algorithm manipulates has
  seconds and microseconds zero (the quantizers zero them before any use), so
  minute granularity is exact.
* Python lists mutated in place become explicit functional state.
* A Python `ValueError` that `schedule_tasks` does not catch is modelled by
  `Except.error ()`.
* The optional LLM re-ordering round trip (`build_prompt` /
  `call_llm_for_schedule` / `parse_llm_output` inside `try/except`) is an
  external network collaborator; it is modelled by the parameter
  `reordered : Option (List Task)`: `some ts` is a successful round trip
  producing the validated list `ts`, `none` is any failure (the `except`
  branch, which falls back to the original list).
-/

namespace TaskMate

/-- One busy range `(start, end)` of minute timestamps, half-open `[s, e)`. -/
abbrev Interval := Int × Int

/-- `FORCED_BREAK_MIN = 5` -/
def FORCED_BREAK_MIN : Int := 5

/-- `PERSONAL_WINDOW_HOURS = 6` -/
def PERSONAL_WINDOW_HOURS : Int := 6

/-- Midnight of the day of `t`: models `t.date()` / what `t.replace(hour=…, minute=…)`
and `datetime.combine(t.date(), …)` keep of `t`. -/
def dayBase (t : Int) : Int := t - t % 1440

/-- `_round_up_to_grid`: zero seconds, then advance the minute field to the first
grid value in `(0, 15, 30, 45)` that is `≥` it, else roll to the next hour's `:00`.
The loop over the four-element tuple `GRID_MINUTES` is unrolled. -/
def roundUpToGrid (t : Int) : Int :=
  let base := t - t % 60
  let m := t % 60
  if m ≤ 0 then base + 0
  else if m ≤ 15 then base + 15
  else if m ≤ 30 then base + 30
  else if m ≤ 45 then base + 45
  else base + 60

/-- `_round_down_to_grid`: `downs = [k for k in GRID_MINUTES if k <= m]`; if
nonempty return `max(downs)`, else roll back to the previous hour's `:45`.
`max(downs)` over the four grid values is unrolled into the decision chain. -/
def roundDownToGrid (t : Int) : Int :=
  let base := t - t % 60
  let m := t % 60
  if 45 ≤ m then base + 45
  else if 30 ≤ m then base + 30
  else if 15 ≤ m then base + 15
  else if 0 ≤ m then base + 0
  else (base - 60) + 45

/-- Python whitespace for `str.strip` / `\s` (ASCII part). -/
def isPySpace (c : Char) : Bool :=
  c = ' ' || c = '\t' || c = '\n' || c = '\x0d' || c = '\x0c' || c = '\x0b'

/-- `str.strip()` on the character list. -/
def stripChars (cs : List Char) : List Char :=
  ((cs.dropWhile isPySpace).reverse.dropWhile isPySpace).reverse

/-- `str.strip()`. -/
def pyStrip (s : String) : String := String.mk (stripChars s.data)

/-- ASCII lower-casing of one character (`str.lower`). -/
def lowerChar (c : Char) : Char :=
  if 'A' ≤ c ∧ c ≤ 'Z' then Char.ofNat (c.toNat + 32) else c

/-- `str.lower()`. -/
def pyLower (s : String) : String := String.mk (s.data.map lowerChar)

/-- Decimal value of a digit character. -/
def digVal (c : Char) : Nat := c.toNat - 48

/-- Value of a nonempty all-digit character list. -/
def digitsVal (cs : List Char) : Nat := cs.foldl (fun n c => n * 10 + digVal c) 0

/-- `int(s)` for an already stripped, lower-cased string: optional sign followed
by at least one ASCII digit; anything else raises (here: `none`). -/
def parseIntString (s : String) : Option Int :=
  let core : List Char → Option Int := fun cs =>
    if cs ≠ [] ∧ cs.all Char.isDigit then some (digitsVal cs) else none
  match s.data with
  | '-' :: rest => (core rest).map (fun n => -n)
  | '+' :: rest => core rest
  | cs => core cs

/-- The `duration` entry of a task dict: an `int`, any other value (read back
through `str(...)`), or absent (`task.get("duration", 30)`). -/
inductive DurField where
  | int (n : Int)
  | str (s : String)
  | absent
deriving DecidableEq, Repr

/-- A parsed task as consumed by `schedule_tasks`: the fields it reads.
(`priority` and `energy` are never read by the packer and are omitted;
a missing or non-string `deadline` entry is `none`.) -/
structure Task where
  description : String
  duration : DurField
  deadline : Option String
deriving DecidableEq, Repr

/-- `_duration_minutes`: accept `int` minutes or labels short/medium/long
(else `int(str(val))` with fallback 30); clamp to `5..240`. -/
def durationMinutes (t : Task) : Int :=
  let minutes : Int :=
    match t.duration with
    | .int n => n
    | .absent => 30
    | .str v =>
      let s := pyLower (pyStrip v)
      if s = "short" then 15
      else if s = "medium" then 30
      else if s = "long" then 60
      else (parseIntString s).getD 30
  max 5 (min minutes 240)

/-- `datetime.strptime(s, "%H:%M")` as minutes after midnight: one or two
digits for `%H` (value `≤ 23`), a colon, one or two digits for `%M`
(value `≤ 59`), nothing else; otherwise a `ValueError` (here: `none`). -/
def strptimeHM (s : String) : Option Int :=
  let hm : Option (Nat × Nat) :=
    match s.data with
    | [a, ':', c] =>
      if a.isDigit && c.isDigit then some (digVal a, digVal c) else none
    | [a, ':', c, d] =>
      if a.isDigit && c.isDigit && d.isDigit then some (digVal a, digVal c * 10 + digVal d) else none
    | [a, b, ':', c] =>
      if a.isDigit && b.isDigit && c.isDigit then some (digVal a * 10 + digVal b, digVal c) else none
    | [a, b, ':', c, d] =>
      if a.isDigit && b.isDigit && c.isDigit && d.isDigit then
        some (digVal a * 10 + digVal b, digVal c * 10 + digVal d)
      else none
    | _ => none
  match hm with
  | some (h, m) => if h ≤ 23 ∧ m ≤ 59 then some ((h : Int) * 60 + m) else none
  | none => none

/-- `_time_to_dt(base_day, hhmm)`; `none` is the `ValueError` of `strptime`. -/
def timeToDt (baseDay : Int) (hhmm : String) : Option Int :=
  (strptimeHM hhmm).map (fun m => dayBase baseDay + m)

/-- `re.match(r"^\d{2}:\d{2}$", s)`: exactly two digits, a colon, two digits
(`$` also accepts one trailing newline). -/
def matchesHHMM (s : String) : Bool :=
  match s.data with
  | [a, b, c, d, e] => a.isDigit && b.isDigit && c = ':' && d.isDigit && e.isDigit
  | [a, b, c, d, e, f] => a.isDigit && b.isDigit && c = ':' && d.isDigit && e.isDigit && f = '\n'
  | _ => false

/-- `\w` for the word-boundary tests of `_DEADLINE_RE` (ASCII part). -/
def isWordChar (c : Char) : Bool := c.isAlphanum || c = '_'

/-- `\s*`. -/
def dropSpaces (cs : List Char) : List Char := cs.dropWhile isPySpace

/-- Consume `kw` (given lower-case) case-insensitively from the front,
returning the rest on success. -/
def eatKeyword (kw : List Char) (cs : List Char) : Option (List Char) :=
  match kw, cs with
  | [], rest => some rest
  | k :: ks, c :: cs' => if lowerChar c = k then eatKeyword ks cs' else none
  | _ :: _, [] => none

/-- The tail `\s*(am|pm)\b` of `_DEADLINE_RE`, returning whether the match is
`pm` when it succeeds, given the hour and minute captures already read. -/
def finishAmPm (h m : Nat) (cs : List Char) : Option (Nat × Nat × Bool) :=
  match dropSpaces cs with
  | c1 :: c2 :: rest =>
    if (lowerChar c1 = 'a' || lowerChar c1 = 'p') && lowerChar c2 = 'm' then
      if rest.head?.all (fun c => !isWordChar c) then some (h, m, lowerChar c1 = 'p')
      else none
    else none
  | _ => none

/-- After the hour capture: the optional greedy group `(?:\s*:\s*(?P<minute>\d{2}))?`
(tried with the colon first, backtracking to without), then `\s*(am|pm)\b`. -/
def afterHour (h : Nat) (cs : List Char) : Option (Nat × Nat × Bool) :=
  let withColon : Option (Nat × Nat × Bool) :=
    match dropSpaces cs with
    | ':' :: cs2 =>
      match dropSpaces cs2 with
      | d1 :: d2 :: cs4 =>
        if d1.isDigit && d2.isDigit then finishAmPm h (digVal d1 * 10 + digVal d2) cs4
        else none
      | _ => none
    | _ => none
  match withColon with
  | some r => some r
  | none => finishAmPm h 0 cs

/-- After the keyword: `\s*(?P<hour>\d{1,2})`, greedy with backtracking
(two digits first, retrying with one), then `afterHour`. -/
def matchAfterKw (cs : List Char) : Option (Nat × Nat × Bool) :=
  match dropSpaces cs with
  | c1 :: rest1 =>
    if c1.isDigit then
      let two : Option (Nat × Nat × Bool) :=
        match rest1 with
        | c2 :: rest2 =>
          if c2.isDigit then afterHour (digVal c1 * 10 + digVal c2) rest2 else none
        | [] => none
      match two with
      | some r => some r
      | none => afterHour (digVal c1) rest1
    else none
  | [] => none

/-- `_DEADLINE_RE.search`: scan left to right; at a position whose previous
character is not a word character, try the alternation `before` then `by`
(each followed by the rest of the pattern, with backtracking). Returns the
captures `(hour, minute, is_pm)` of the leftmost match. -/
def dlSearch : List Char → Bool → Option (Nat × Nat × Bool)
  | [], _ => none
  | c :: cs, prevWord =>
    let tryHere : Option (Nat × Nat × Bool) :=
      if prevWord then none
      else
        match (eatKeyword ['b','e','f','o','r','e'] (c :: cs)).bind matchAfterKw with
        | some r => some r
        | none => (eatKeyword ['b','y'] (c :: cs)).bind matchAfterKw
    match tryHere with
    | some r => some r
    | none => dlSearch cs (isWordChar c)

/-- `_parse_deadline_from_text`: regex search, 12-hour conversion
(`hour == 12 → 0`, `pm → +12`), then `now.replace(hour=…, minute=…, second=0,
microsecond=0)` — which raises `ValueError` (here: `.error ()`) when the hour
is not `0..23` or the minute not `0..59`. -/
def parseDeadlineFromText (text : String) (now : Int) : Except Unit (Option Int) :=
  match dlSearch text.data false with
  | none => .ok none
  | some (h, m, pm) =>
    let hour := if h = 12 then 0 else h
    let hour := if pm then hour + 12 else hour
    if hour ≤ 23 ∧ m ≤ 59 then .ok (some (dayBase now + (hour : Int) * 60 + m))
    else .error ()

/-- `_fits(start, end, occupied, day_start, day_end)`. -/
def fits (s e : Int) (occupied : List Interval) (dayStart dayEnd : Int) : Bool :=
  if s < dayStart || e > dayEnd || s ≥ e then false
  else occupied.all (fun iv => e ≤ iv.1 || s ≥ iv.2)

/-- `_add_with_break`: append the slot and its trailing 5-minute break. -/
def addWithBreak (occupied : List Interval) (s e : Int) : List Interval :=
  occupied ++ [(s, e), (e, e + FORCED_BREAK_MIN)]

/-- The loop of `_merge` over the already sorted tail, carrying the interval
`out[-1]` currently being extended. -/
def mergeLoop (cur : Interval) : List Interval → List Interval
  | [] => [cur]
  | iv :: rest =>
    if iv.1 ≤ cur.2 then mergeLoop (cur.1, max cur.2 iv.2) rest
    else cur :: mergeLoop iv rest

/-- Stable insert for `sortKeyed`: place `x` before the first element whose
key exceeds `x`'s. -/
def insertKeyed (key : α → Int) (x : α) : List α → List α
  | [] => [x]
  | y :: ys => if key x ≤ key y then x :: y :: ys else y :: insertKeyed key x ys

/-- Python's `list.sort(key=…)` / `sorted(…, key=…)` with an integer key: a
stable sort.  Any stable sort by the same key computes the same list, so a
stable insertion sort is an exact model of CPython's stable sort. -/
def sortKeyed (key : α → Int) : List α → List α
  | [] => []
  | x :: xs => insertKeyed key x (sortKeyed key xs)

/-- `sorted(occupied, key=lambda x: x[0])`: Python's stable sort by start. -/
def sortByStart (occupied : List Interval) : List Interval :=
  sortKeyed (fun iv => iv.1) occupied

/-- `_merge`. -/
def merge (occupied : List Interval) : List Interval :=
  match sortByStart occupied with
  | [] => []
  | iv :: rest => mergeLoop iv rest

/-- The bounded loop of `_find_backward_slot` (`for _ in range(12*4+1)`);
the fuel counts remaining iterations. -/
def findBackwardAux (dur : Int) (occupied : List Interval) (dayStart deadline : Int) :
    Int → Nat → Option Interval
  | _, 0 => none
  | endCand, fuel + 1 =>
    let startCand := roundUpToGrid (endCand - dur)
    let endCand' := startCand + dur
    if fits startCand endCand' occupied dayStart deadline then some (startCand, endCand')
    else
      let nextEnd := endCand' - 15
      if nextEnd ≤ dayStart then none
      else findBackwardAux dur occupied dayStart deadline nextEnd fuel

/-- `_find_backward_slot`. -/
def findBackwardSlot (deadline durMin : Int) (occupied : List Interval)
    (dayStart : Int) : Option Interval :=
  findBackwardAux durMin occupied dayStart deadline (roundDownToGrid deadline) (12 * 4 + 1)

/-- The bounded loop of `_find_forward_slot`. -/
def findForwardAux (dur : Int) (occupied : List Interval) (dayStart dayEnd : Int) :
    Int → Nat → Option Interval
  | _, 0 => none
  | startCand, fuel + 1 =>
    let endCand := startCand + dur
    if fits startCand endCand occupied dayStart dayEnd then some (startCand, endCand)
    else
      let next := startCand + 15
      if next + dur > dayEnd then none
      else findForwardAux dur occupied dayStart dayEnd next fuel

/-- `_find_forward_slot`. -/
def findForwardSlot (cursor durMin : Int) (occupied : List Interval)
    (dayStart dayEnd : Int) : Option Interval :=
  findForwardAux durMin occupied dayStart dayEnd (roundUpToGrid (max cursor dayStart)) (12 * 4 + 1)

/-- The slice of the profile dict the packer reads:
`profile.get("work_hours", {}).get("end", "17:00")` (`none` = key absent). -/
structure Profile where
  workEnd : Option String
deriving DecidableEq, Repr

/-- One entry of the internal `placed` list, carrying the slot timestamps
`s_dt`/`e_dt` from which the formatted strings are produced. -/
structure PlacedSlot where
  description : String
  start : Int
  stop : Int
deriving DecidableEq, Repr

/-- The deadline resolution of the partition loop of `schedule_tasks`
(lines 183–190): the structured field first — regex gate, then
`_time_to_dt`, whose `ValueError` is uncaught — then the textual fallback
on the stripped description. -/
def resolveDeadline (t : Task) (now : Int) : Except Unit (Option Int) :=
  match t.deadline with
  | some s =>
    if matchesHHMM s then
      match timeToDt now s with
      | some dl => .ok (some dl)
      | none => .error ()
    else parseDeadlineFromText (pyStrip t.description) now
  | none => parseDeadlineFromText (pyStrip t.description) now

/-- The partition loop of `schedule_tasks` (lines 177–197): skip tasks with an
empty stripped description; resolve a deadline; clip it to `day_end`; split
into deadline-bearing pairs and normal tasks, both in input order. -/
def partitionTasks (tasks : List Task) (now dayEnd : Int) :
    Except Unit (List (Int × Task) × List Task) :=
  match tasks with
  | [] => .ok ([], [])
  | t :: rest =>
    if pyStrip t.description = "" then partitionTasks rest now dayEnd
    else
      match resolveDeadline t now with
      | .error e => .error e
      | .ok dl? =>
        match partitionTasks rest now dayEnd with
        | .error e => .error e
        | .ok (dts, ns) =>
          match dl? with
          | some dl => .ok ((min dl dayEnd, t) :: dts, ns)
          | none => .ok (dts, t :: ns)

/-- `deadline_tasks.sort(key=lambda x: x[0])`: Python's stable sort by deadline. -/
def sortByDeadline (dts : List (Int × Task)) : List (Int × Task) :=
  sortKeyed (fun dlt => dlt.1) dts

/-- The backward-placement loop (lines 206–219): for each deadline pair, search
against the merged occupied set; on failure skip the task; on success append
slot and break to the raw occupied list and record the placement. -/
def placeBackward (startFrom : Int) :
    List (Int × Task) → List Interval → List PlacedSlot → List Interval × List PlacedSlot
  | [], occupied, placed => (occupied, placed)
  | (dl, t) :: rest, occupied, placed =>
    match findBackwardSlot dl (durationMinutes t) (merge occupied) startFrom with
    | none => placeBackward startFrom rest occupied placed
    | some (s, e) =>
      placeBackward startFrom rest (addWithBreak occupied s e)
        (placed ++ [⟨pyStrip t.description, s, e⟩])

/-- The cursor walk (lines 224–226): for each merged interval in order, if it
contains the cursor, advance the cursor to its end. -/
def advanceCursor : Int → List Interval → Int
  | cursor, [] => cursor
  | cursor, iv :: rest =>
    advanceCursor (if iv.1 ≤ cursor ∧ cursor < iv.2 then iv.2 else cursor) rest

/-- The forward-placement loop (lines 228–243): place each normal task from the
cursor; a failed search stops the whole loop; after a placement the occupied
set is re-merged and the cursor jumps past the break, stopping if it reaches
`day_end`. -/
def placeForward (dayStart dayEnd : Int) :
    List Task → Int → List Interval → List PlacedSlot → List Interval × List PlacedSlot
  | [], _, occupied, placed => (occupied, placed)
  | t :: rest, cursor, occupied, placed =>
    match findForwardSlot cursor (durationMinutes t) occupied dayStart dayEnd with
    | none => (occupied, placed)
    | some (s, e) =>
      let occupied' := merge (addWithBreak occupied s e)
      let placed' := placed ++ [⟨pyStrip t.description, s, e⟩]
      let cursor' := e + FORCED_BREAK_MIN
      if cursor' ≥ dayEnd then (occupied', placed')
      else placeForward dayStart dayEnd rest cursor' occupied' placed'

/-- The final `placed.sort(key=lambda x: datetime.strptime(x["start_time"],
"%I:%M %p"))` (line 246): `strptime` of the formatted string recovers only the
time of day of the start, so this is Python's stable sort by
`start mod 1440`. -/
def sortByStartTod (placed : List PlacedSlot) : List PlacedSlot :=
  sortKeyed (fun p => p.start % 1440) placed

/-- Lines 165–246 of `schedule_tasks`, after the window has been resolved:
reorder fallback, partition, backward phase, cursor walk, forward phase,
final chronological-display sort. -/
def scheduleCore (parsedTasks : List Task) (now startFrom dayEnd : Int)
    (reordered : Option (List Task)) : Except Unit (List PlacedSlot) :=
  let tasks := reordered.getD parsedTasks
  match partitionTasks tasks now dayEnd with
  | .error e => .error e
  | .ok (dts, ns) =>
    let sorted := sortByDeadline dts
    let bw := placeBackward startFrom sorted [] []
    let occupied := merge bw.1
    let cursor := advanceCursor startFrom occupied
    let fw := placeForward startFrom dayEnd ns cursor occupied bw.2
    .ok (sortByStartTod fw.2)

/-- `schedule_tasks`, producing the placed slots with their timestamps (the
formatted output strings are produced from exactly these timestamps by
`fmtTime`, see `scheduleTasks`).  `now` is `datetime.now()` in minutes;
`reordered` is the outcome of the optional LLM reorder (see the file header). -/
def scheduleSlots (parsedTasks : List Task) (profile : Profile) (scheduleType : String)
    (now : Int) (reordered : Option (List Task)) : Except Unit (List PlacedSlot) :=
  match parsedTasks with
  | [] => .ok []
  | _ :: _ =>
    let startFrom := roundUpToGrid now
    if scheduleType = "work-related" then
      match timeToDt now (profile.workEnd.getD "17:00") with
      | none => .error ()
      | some dayEnd =>
        if dayEnd ≤ startFrom then .ok []
        else scheduleCore parsedTasks now startFrom dayEnd reordered
    else
      scheduleCore parsedTasks now startFrom
        (startFrom + 60 * PERSONAL_WINDOW_HOURS) reordered

/-- `_fmt`: `strftime("%I:%M %p").lstrip("0")` — 12-hour clock of the time of
day, minutes zero-padded, no leading zero on the hour. -/
def fmtTime (t : Int) : String :=
  let tod := t % 1440
  let h24 := tod / 60
  let m := tod % 60
  let h12 := if h24 % 12 = 0 then 12 else h24 % 12
  toString h12 ++ ":" ++ (if m < 10 then "0" ++ toString m else toString m) ++
    (if h24 < 12 then " AM" else " PM")

/-- One element of the returned list: the dict with formatted strings. -/
structure PlacedOut where
  description : String
  start_time : String
  end_time : String
deriving DecidableEq, Repr

/-- `schedule_tasks` as the caller sees it: the placed slots with the
`_fmt`-formatted display strings. -/
def scheduleTasks (parsedTasks : List Task) (profile : Profile) (scheduleType : String)
    (now : Int) (reordered : Option (List Task)) : Except Unit (List PlacedOut) :=
  (scheduleSlots parsedTasks profile scheduleType now reordered).map
    (List.map (fun p => ⟨p.description, fmtTime p.start, fmtTime p.stop⟩))

/-! ## Closed forms of the grid quantizers -/

theorem roundUpToGrid_closed (t : Int) : roundUpToGrid t = t + (15 - t % 15) % 15 := by
  unfold roundUpToGrid
  dsimp only
  have h60 : 0 ≤ t % 60 := Int.emod_nonneg t (by norm_num)
  have h60' : t % 60 < 60 := Int.emod_lt_of_pos t (by norm_num)
  split_ifs <;> omega

theorem roundDownToGrid_closed (t : Int) : roundDownToGrid t = t - t % 15 := by
  unfold roundDownToGrid
  dsimp only
  have h60 : 0 ≤ t % 60 := Int.emod_nonneg t (by norm_num)
  have h60' : t % 60 < 60 := Int.emod_lt_of_pos t (by norm_num)
  split_ifs <;> omega

/-- **C7.** The quarter-hour quantizers are idempotent: a second application of
`_round_up_to_grid` (resp. `_round_down_to_grid`) changes nothing, and a
timestamp already on the grid (minute field in `{0, 15, 30, 45}`; in this
minute-granular model seconds and microseconds are identically zero) is
returned unchanged by both. -/
theorem quantizers_idempotent (t : Int) :
    roundUpToGrid (roundUpToGrid t) = roundUpToGrid t ∧
    roundDownToGrid (roundDownToGrid t) = roundDownToGrid t ∧
    ((t % 60 = 0 ∨ t % 60 = 15 ∨ t % 60 = 30 ∨ t % 60 = 45) →
      roundUpToGrid t = t ∧ roundDownToGrid t = t) := by
  refine ⟨?_, ?_, ?_⟩
  · rw [roundUpToGrid_closed, roundUpToGrid_closed t]; omega
  · rw [roundDownToGrid_closed, roundDownToGrid_closed t]; omega
  · intro h
    rw [roundUpToGrid_closed, roundDownToGrid_closed]; omega

/-- Witness for C7 at concrete inputs: idempotence at `t = 547` (9:07) and
fixedness at the on-grid `t = 570` (9:30). -/
theorem quantizers_idempotent_witness :
    roundUpToGrid (roundUpToGrid 547) = roundUpToGrid 547 ∧
    (roundUpToGrid 570 = 570 ∧ roundDownToGrid 570 = 570) :=
  ⟨(quantizers_idempotent 547).1,
   (quantizers_idempotent 570).2.2 (by decide)⟩

/-- **C9.** `_round_down_to_grid` never changes the hour or the date: it
returns exactly the greatest grid point `≤ t` (`t - t % 15`, i.e. the minute
field becomes the greatest value of `{0,15,30,45}` that is `≤` the original
minute), the hour index (`· / 60`, hence also the day) is unchanged, and the
result never drops below the start of `t`'s hour — so the
`(dt - timedelta(hours=1)).replace(minute=45)` branch is unreachable: minute 0
is a grid value `≤` every minute field. -/
theorem roundDown_preserves_hour (t : Int) :
    roundDownToGrid t = t - t % 15 ∧
    roundDownToGrid t / 60 = t / 60 ∧
    t - t % 60 ≤ roundDownToGrid t := by
  rw [roundDownToGrid_closed]
  refine ⟨rfl, ?_, by omega⟩
  omega

/-- Witness for C9 at the concrete input `t = 599` (9:59). -/
theorem roundDown_preserves_hour_witness :
    roundDownToGrid 599 = 599 - 599 % 15 ∧
    roundDownToGrid 599 / 60 = 599 / 60 ∧
    599 - 599 % 60 ≤ roundDownToGrid (599 : Int) :=
  roundDown_preserves_hour 599

/-! ## Early return, empty-window guard, Scenario A, totality -/

/-- **C10.** With an empty task list `schedule_tasks` returns `[]` immediately
(line 150–151), before the window is resolved, the profile or schedule
category is read, or the external reorder collaborator is contacted: the
result is `.ok []` uniformly in the profile, the schedule type and the
outcome of the reorder call (which in the source would not even be issued). -/
theorem empty_tasks_early_return (profile : Profile) (scheduleType : String)
    (now : Int) (reordered : Option (List Task)) :
    scheduleTasks [] profile scheduleType now reordered = .ok [] := rfl

/-- **C5.** For a non-empty task list and the bounded-workday category
(`schedule_type = "work-related"`), if the configured end-of-day time
(`profile.work_hours.end`, default `"17:00"`, parsed by `%H:%M` and combined
with today's date) is not strictly after the quantized current time, the call
returns the empty list. -/
theorem empty_window_guard (t0 : Task) (ts : List Task) (profile : Profile)
    (now : Int) (reordered : Option (List Task)) (m : Int)
    (hparse : strptimeHM (profile.workEnd.getD "17:00") = some m)
    (hle : dayBase now + m ≤ roundUpToGrid now) :
    scheduleTasks (t0 :: ts) profile "work-related" now reordered = .ok [] := by
  unfold scheduleTasks scheduleSlots timeToDt
  rw [hparse]
  simp only [Option.map_some', if_pos hle]
  rfl

/-- Witness for C5: one 30-minute task, work end `08:00`, current time 09:00. -/
theorem empty_window_guard_witness :
    scheduleTasks [⟨"a", .int 30, none⟩] ⟨some "08:00"⟩ "work-related" 540 none = .ok [] :=
  empty_window_guard _ _ _ _ _ 480 rfl (by decide)

/-- **C2 counterexample.** Scenario A of the spec: quantized current time
09:00, personal window (ending 15:00), tasks `[{duration 30}, {duration 45}]`.
The claim asserts the second task is placed 09:35–10:20, immediately after the
break; the code in fact quantizes the candidate start up to the grid
(`_find_forward_slot` line 126), so the actual output places it at
09:45–10:30 — and `"9:45 AM" ≠ "9:35 AM"`. -/
theorem scenario_a_counterexample :
    scheduleTasks [⟨"a", .int 30, none⟩, ⟨"b", .int 45, none⟩] ⟨none⟩ "personal" 540 none =
      .ok [⟨"a", "9:00 AM", "9:30 AM"⟩, ⟨"b", "9:45 AM", "10:30 AM"⟩] ∧
    ("9:45 AM" : String) ≠ "9:35 AM" :=
  ⟨rfl, by decide⟩

/-- **C2 amended.** In Scenario A the first task is placed 09:00–09:30, and
the second at the first grid point at or after the 09:35 end of the break:
09:45–10:30 (grid-quantized, not immediately after the break). -/
theorem scenario_a_grid_placement :
    scheduleTasks [⟨"a", .int 30, none⟩, ⟨"b", .int 45, none⟩] ⟨none⟩ "personal" 540 none =
      .ok [⟨"a", "9:00 AM", "9:30 AM"⟩, ⟨"b", "9:45 AM", "10:30 AM"⟩] := rfl

/-- **C3 counterexample.** A structured deadline `"25:00"` passes the
`^\d{2}:\d{2}$` gate (line 185) but `strptime("%H:%M")` raises `ValueError`
inside `_time_to_dt` (line 26), which `schedule_tasks` does not catch: with
the reorder collaborator failing (its own `try/except` falls back to the
original tasks), the call aborts instead of treating the task as
deadline-free. -/
theorem invalid_deadline_crash :
    scheduleTasks [⟨"x", .int 30, some "25:00"⟩] ⟨none⟩ "personal" 540 none = .error () := rfl

theorem partitionTasks_isOk (tasks : List Task) (now dayEnd : Int)
    (h : ∀ t ∈ tasks, resolveDeadline t now ≠ .error ()) :
    ∃ p, partitionTasks tasks now dayEnd = .ok p := by
  induction tasks with
  | nil => exact ⟨([], []), rfl⟩
  | cons t rest ih =>
    obtain ⟨⟨dts, ns⟩, hp⟩ := ih (fun t' ht' => h t' (List.mem_cons_of_mem _ ht'))
    unfold partitionTasks
    by_cases hd : pyStrip t.description = ""
    · rw [if_pos hd]; exact ⟨_, hp⟩
    · rw [if_neg hd]
      cases hr : resolveDeadline t now with
      | error e => cases e; exact absurd hr (h t (List.mem_cons_self t rest))
      | ok dl? =>
        rw [hp]
        cases dl? with
        | some dl => exact ⟨_, rfl⟩
        | none => exact ⟨_, rfl⟩

/-- **C3 amended.** `schedule_tasks` terminates normally with a list provided
(i) when the schedule type is the bounded-workday kind, the profile's
end-of-day string parses as `%H:%M`, and (ii) every task in the list actually
scheduled (the reordered list, or the original on reorder failure) has a
deadline resolution that does not raise — i.e. any structured field matching
`^\d{2}:\d{2}$` is a valid clock time and any matched `before/by` phrase
yields an in-range hour and minute.  A deadline field that fails the pattern,
or a description with no matched phrase, is treated as no deadline; but a
matched out-of-range value raises (see the counterexample), contrary to the
original claim. -/
theorem schedule_total_of_valid_inputs
    (parsedTasks : List Task) (profile : Profile) (scheduleType : String)
    (now : Int) (reordered : Option (List Task))
    (hwork : scheduleType = "work-related" →
      (strptimeHM (profile.workEnd.getD "17:00")).isSome)
    (hdl : ∀ t ∈ reordered.getD parsedTasks, resolveDeadline t now ≠ .error ()) :
    ∃ out, scheduleTasks parsedTasks profile scheduleType now reordered = .ok out := by
  have hcore : ∀ dayEnd : Int, ∃ slots,
      scheduleCore parsedTasks now (roundUpToGrid now) dayEnd reordered = .ok slots := by
    intro dayEnd
    obtain ⟨⟨dts, ns⟩, hp⟩ :=
      partitionTasks_isOk (reordered.getD parsedTasks) now dayEnd hdl
    exact ⟨_, by unfold scheduleCore; dsimp only; rw [hp]⟩
  have main : ∃ slots,
      scheduleSlots parsedTasks profile scheduleType now reordered = .ok slots := by
    cases parsedTasks with
    | nil => exact ⟨[], rfl⟩
    | cons t0 ts =>
      unfold scheduleSlots
      by_cases hst : scheduleType = "work-related"
      · rw [if_pos hst]
        obtain ⟨m, hm⟩ := Option.isSome_iff_exists.mp (hwork hst)
        unfold timeToDt
        rw [hm]
        dsimp only [Option.map_some']
        by_cases hle : dayBase now + m ≤ roundUpToGrid now
        · rw [if_pos hle]; exact ⟨[], rfl⟩
        · rw [if_neg hle]; exact hcore _
      · rw [if_neg hst]; exact hcore _
  obtain ⟨slots, hs⟩ := main
  exact ⟨_, by unfold scheduleTasks; rw [hs]; rfl⟩

/-- Witness for C3 (amended): a valid in-range deadline, personal window. -/
theorem schedule_total_witness :
    ∃ out, scheduleTasks [⟨"x", .int 30, some "09:30"⟩] ⟨none⟩ "personal" 540 none = .ok out :=
  schedule_total_of_valid_inputs _ _ _ _ _ (by intro h; exact absurd h (by decide))
    (by
      intro t ht
      simp only [Option.getD_none, List.mem_singleton] at ht
      subst ht
      exact fun hc => Except.noConfusion hc)

/-! ## Properties of the stable key sort -/

theorem insertKeyed_perm (key : α → Int) (x : α) (l : List α) :
    List.Perm (insertKeyed key x l) (x :: l) := by
  induction l with
  | nil => exact List.Perm.refl _
  | cons y ys ih =>
    unfold insertKeyed
    by_cases h : key x ≤ key y
    · rw [if_pos h]
    · rw [if_neg h]
      exact (ih.cons y).trans (List.Perm.swap x y ys)

theorem sortKeyed_perm (key : α → Int) (l : List α) : List.Perm (sortKeyed key l) l := by
  induction l with
  | nil => exact List.Perm.refl _
  | cons x xs ih => exact (insertKeyed_perm key x (sortKeyed key xs)).trans (ih.cons x)

theorem mem_insertKeyed {key : α → Int} {x z : α} {l : List α} :
    z ∈ insertKeyed key x l ↔ z = x ∨ z ∈ l := by
  rw [(insertKeyed_perm key x l).mem_iff, List.mem_cons]

theorem insertKeyed_pairwise (key : α → Int) (x : α) {l : List α}
    (h : l.Pairwise (fun a b => key a ≤ key b)) :
    (insertKeyed key x l).Pairwise (fun a b => key a ≤ key b) := by
  induction l with
  | nil => simp [insertKeyed]
  | cons y ys ih =>
    rw [List.pairwise_cons] at h
    obtain ⟨hy, hys⟩ := h
    unfold insertKeyed
    by_cases hxy : key x ≤ key y
    · rw [if_pos hxy]
      refine List.Pairwise.cons ?_ (List.Pairwise.cons hy hys)
      intro z hz
      rcases List.mem_cons.mp hz with rfl | hz'
      · exact hxy
      · exact le_trans hxy (hy z hz')
    · rw [if_neg hxy]
      refine List.Pairwise.cons ?_ (ih hys)
      intro z hz
      rcases mem_insertKeyed.mp hz with rfl | hz'
      · exact le_of_not_le hxy
      · exact hy z hz'

theorem sortKeyed_pairwise (key : α → Int) (l : List α) :
    (sortKeyed key l).Pairwise (fun a b => key a ≤ key b) := by
  induction l with
  | nil => exact List.Pairwise.nil
  | cons x xs ih => exact insertKeyed_pairwise key x ih

/-! ## What a successful `_fits` and slot search guarantee -/

theorem fits_spec {s e : Int} {occ : List Interval} {ds de : Int}
    (h : fits s e occ ds de = true) :
    ds ≤ s ∧ e ≤ de ∧ s < e ∧ ∀ iv ∈ occ, e ≤ iv.1 ∨ iv.2 ≤ s := by
  unfold fits at h
  split at h
  · exact absurd h (by simp)
  · next hc =>
    rw [List.all_eq_true] at h
    simp only [Bool.or_eq_true, decide_eq_true_eq, not_or] at hc
    push_neg at hc
    refine ⟨by omega, by omega, by omega, ?_⟩
    intro iv hiv
    have := h iv hiv
    simp only [Bool.or_eq_true, decide_eq_true_eq] at this
    rcases this with h' | h'
    · exact Or.inl h'
    · exact Or.inr h'

theorem findBackwardAux_fits {dur : Int} {occ : List Interval} {ds dl : Int} :
    ∀ (fuel : Nat) (ec s e : Int),
      findBackwardAux dur occ ds dl ec fuel = some (s, e) →
      fits s e occ ds dl = true ∧ e = s + dur := by
  intro fuel
  induction fuel with
  | zero => intro ec s e h; exact absurd h (by simp [findBackwardAux])
  | succ n ih =>
    intro ec s e h
    unfold findBackwardAux at h
    dsimp only at h
    by_cases hf : fits (roundUpToGrid (ec - dur)) (roundUpToGrid (ec - dur) + dur) occ ds dl = true
    · rw [if_pos hf] at h
      simp only [Option.some.injEq, Prod.mk.injEq] at h
      obtain ⟨h1, h2⟩ := h
      subst h1; subst h2
      exact ⟨hf, rfl⟩
    · rw [if_neg hf] at h
      by_cases hb : roundUpToGrid (ec - dur) + dur - 15 ≤ ds
      · rw [if_pos hb] at h; exact absurd h (by simp)
      · rw [if_neg hb] at h; exact ih _ _ _ h

theorem findForwardAux_fits {dur : Int} {occ : List Interval} {ds de : Int} :
    ∀ (fuel : Nat) (sc s e : Int),
      findForwardAux dur occ ds de sc fuel = some (s, e) →
      fits s e occ ds de = true ∧ e = s + dur := by
  intro fuel
  induction fuel with
  | zero => intro sc s e h; exact absurd h (by simp [findForwardAux])
  | succ n ih =>
    intro sc s e h
    unfold findForwardAux at h
    dsimp only at h
    by_cases hf : fits sc (sc + dur) occ ds de = true
    · rw [if_pos hf] at h
      simp only [Option.some.injEq, Prod.mk.injEq] at h
      obtain ⟨h1, h2⟩ := h
      subst h1; subst h2
      exact ⟨hf, rfl⟩
    · rw [if_neg hf] at h
      by_cases hb : sc + 15 + dur > de
      · rw [if_pos hb] at h; exact absurd h (by simp)
      · rw [if_neg hb] at h; exact ih _ _ _ h

/-- What holds of every committed placement: the recorded description is the
task's stripped description, the slot length is exactly the task's clamped
duration, and the slot lies in `[ds, de]` and is nonempty. -/
def SlotFits (ds de : Int) (t : Task) (p : PlacedSlot) : Prop :=
  p.description = pyStrip t.description ∧ p.stop - p.start = durationMinutes t ∧
  ds ≤ p.start ∧ p.stop ≤ de ∧ p.start < p.stop

theorem placeBackward_pairs (startFrom : Int) :
    ∀ (dts : List (Int × Task)) (occ : List Interval) (placed : List PlacedSlot),
      ∃ pairs : List ((Int × Task) × PlacedSlot),
        (placeBackward startFrom dts occ placed).2 = placed ++ pairs.map Prod.snd ∧
        (pairs.map Prod.fst).Sublist dts ∧
        ∀ pr ∈ pairs, SlotFits startFrom pr.1.1 pr.1.2 pr.2 := by
  intro dts
  induction dts with
  | nil =>
    intro occ placed
    exact ⟨[], by simp [placeBackward], List.nil_sublist _,
      fun pr hpr => absurd hpr (List.not_mem_nil _)⟩
  | cons hd rest ih =>
    intro occ placed
    obtain ⟨dl, t⟩ := hd
    cases hslot : findBackwardSlot dl (durationMinutes t) (merge occ) startFrom with
    | none =>
      obtain ⟨pairs, h1, h2, h3⟩ := ih occ placed
      refine ⟨pairs, ?_, h2.cons _, h3⟩
      unfold placeBackward
      rw [hslot]
      exact h1
    | some se =>
      obtain ⟨s, e⟩ := se
      have hslot' : findBackwardAux (durationMinutes t) (merge occ) startFrom dl
          (roundDownToGrid dl) (12 * 4 + 1) = some (s, e) := hslot
      obtain ⟨hfit, hdur⟩ := findBackwardAux_fits _ _ _ _ hslot'
      obtain ⟨fs1, fs2, fs3, _⟩ := fits_spec hfit
      obtain ⟨pairs, h1, h2, h3⟩ :=
        ih (addWithBreak occ s e) (placed ++ [⟨pyStrip t.description, s, e⟩])
      refine ⟨((dl, t), ⟨pyStrip t.description, s, e⟩) :: pairs, ?_, h2.cons₂ _, ?_⟩
      · unfold placeBackward
        rw [hslot]
        rw [h1]
        simp
      · intro pr hpr
        rcases List.mem_cons.mp hpr with rfl | hpr'
        · exact ⟨rfl, by dsimp only; omega, fs1, fs2, fs3⟩
        · exact h3 pr hpr'

theorem placeForward_pairs (ds de : Int) :
    ∀ (ts : List Task) (cursor : Int) (occ : List Interval) (placed : List PlacedSlot),
      ∃ pairs : List (Task × PlacedSlot),
        (placeForward ds de ts cursor occ placed).2 = placed ++ pairs.map Prod.snd ∧
        (pairs.map Prod.fst).Sublist ts ∧
        ∀ pr ∈ pairs, SlotFits ds de pr.1 pr.2 := by
  intro ts
  induction ts with
  | nil =>
    intro cursor occ placed
    exact ⟨[], by simp [placeForward], List.nil_sublist _,
      fun pr hpr => absurd hpr (List.not_mem_nil _)⟩
  | cons t rest ih =>
    intro cursor occ placed
    cases hslot : findForwardSlot cursor (durationMinutes t) occ ds de with
    | none =>
      refine ⟨[], ?_, List.nil_sublist _, fun pr hpr => absurd hpr (List.not_mem_nil _)⟩
      unfold placeForward
      rw [hslot]
      simp
    | some se =>
      obtain ⟨s, e⟩ := se
      have hslot' : findForwardAux (durationMinutes t) occ ds de
          (roundUpToGrid (max cursor ds)) (12 * 4 + 1) = some (s, e) := hslot
      obtain ⟨hfit, hdur⟩ := findForwardAux_fits _ _ _ _ hslot'
      obtain ⟨fs1, fs2, fs3, _⟩ := fits_spec hfit
      by_cases hc : e + FORCED_BREAK_MIN ≥ de
      · refine ⟨[(t, ⟨pyStrip t.description, s, e⟩)], ?_, ?_, ?_⟩
        · unfold placeForward
          rw [hslot]
          dsimp only
          rw [if_pos hc]
          simp
        · exact (List.nil_sublist rest).cons₂ t
        · intro pr hpr
          rcases List.mem_cons.mp hpr with rfl | hpr'
          · exact ⟨rfl, by dsimp only; omega, fs1, fs2, fs3⟩
          · exact absurd hpr' (List.not_mem_nil _)
      · obtain ⟨pairs, h1, h2, h3⟩ :=
          ih (e + FORCED_BREAK_MIN) (merge (addWithBreak occ s e))
            (placed ++ [⟨pyStrip t.description, s, e⟩])
        refine ⟨(t, ⟨pyStrip t.description, s, e⟩) :: pairs, ?_, h2.cons₂ _, ?_⟩
        · unfold placeForward
          rw [hslot]
          dsimp only
          rw [if_neg hc]
          rw [h1]
          simp
        · intro pr hpr
          rcases List.mem_cons.mp hpr with rfl | hpr'
          · exact ⟨rfl, by dsimp only; omega, fs1, fs2, fs3⟩
          · exact h3 pr hpr'

theorem partitionTasks_mem :
    ∀ (tasks : List Task) (now dayEnd : Int) (dts : List (Int × Task)) (ns : List Task),
      partitionTasks tasks now dayEnd = .ok (dts, ns) →
      (∀ dlt ∈ dts, dlt.2 ∈ tasks ∧
        ∃ dl0, resolveDeadline dlt.2 now = .ok (some dl0) ∧ dlt.1 = min dl0 dayEnd) ∧
      (∀ t ∈ ns, t ∈ tasks ∧ resolveDeadline t now = .ok none) := by
  intro tasks
  induction tasks with
  | nil =>
    intro now dayEnd dts ns h
    unfold partitionTasks at h
    simp only [Except.ok.injEq, Prod.mk.injEq] at h
    obtain ⟨h1, h2⟩ := h
    subst h1; subst h2
    exact ⟨fun dlt hm => absurd hm (List.not_mem_nil _),
           fun t hm => absurd hm (List.not_mem_nil _)⟩
  | cons t rest ih =>
    intro now dayEnd dts ns h
    unfold partitionTasks at h
    by_cases hd : pyStrip t.description = ""
    · rw [if_pos hd] at h
      obtain ⟨hdts, hns⟩ := ih now dayEnd dts ns h
      exact ⟨fun dlt hm => ⟨List.mem_cons_of_mem _ (hdts dlt hm).1, (hdts dlt hm).2⟩,
             fun t' hm => ⟨List.mem_cons_of_mem _ (hns t' hm).1, (hns t' hm).2⟩⟩
    · rw [if_neg hd] at h
      cases hr : resolveDeadline t now with
      | error e => rw [hr] at h; exact absurd h (by simp)
      | ok dl? =>
        rw [hr] at h
        cases hrest : partitionTasks rest now dayEnd with
        | error e => rw [hrest] at h; exact absurd h (by simp)
        | ok p =>
          obtain ⟨dts', ns'⟩ := p
          rw [hrest] at h
          obtain ⟨hdts', hns'⟩ := ih now dayEnd dts' ns' hrest
          cases dl? with
          | some dl =>
            simp only [Except.ok.injEq, Prod.mk.injEq] at h
            obtain ⟨h1, h2⟩ := h
            subst h1; subst h2
            constructor
            · intro dlt hm
              rcases List.mem_cons.mp hm with rfl | hm'
              · exact ⟨List.mem_cons_self _ _, dl, hr, rfl⟩
              · exact ⟨List.mem_cons_of_mem _ (hdts' dlt hm').1, (hdts' dlt hm').2⟩
            · intro t' hm
              exact ⟨List.mem_cons_of_mem _ (hns' t' hm).1, (hns' t' hm).2⟩
          | none =>
            simp only [Except.ok.injEq, Prod.mk.injEq] at h
            obtain ⟨h1, h2⟩ := h
            subst h1; subst h2
            constructor
            · intro dlt hm
              exact ⟨List.mem_cons_of_mem _ (hdts' dlt hm).1, (hdts' dlt hm).2⟩
            · intro t' hm
              rcases List.mem_cons.mp hm with rfl | hm'
              · exact ⟨List.mem_cons_self _ _, hr⟩
              · exact ⟨List.mem_cons_of_mem _ (hns' t' hm').1, (hns' t' hm').2⟩

/-- The common content of one successful `scheduleCore` run: every output slot
comes either from a deadline pair of the partition (placed backward) or from a
deadline-free task (placed forward), with the guarantees of `SlotFits`. -/
theorem scheduleCore_spec {parsedTasks : List Task} {now startFrom dayEnd : Int}
    {reordered : Option (List Task)} {slots : List PlacedSlot}
    (h : scheduleCore parsedTasks now startFrom dayEnd reordered = .ok slots) :
    ∃ (pairs : List ((Int × Task) × PlacedSlot)) (frees : List (Task × PlacedSlot)),
      slots.Perm (pairs.map Prod.snd ++ frees.map Prod.snd) ∧
      (∀ pr ∈ pairs, pr.1.2 ∈ reordered.getD parsedTasks ∧
        (∃ dl0, resolveDeadline pr.1.2 now = .ok (some dl0) ∧ pr.1.1 = min dl0 dayEnd) ∧
        SlotFits startFrom pr.1.1 pr.1.2 pr.2) ∧
      (∀ fr ∈ frees, fr.1 ∈ reordered.getD parsedTasks ∧
        resolveDeadline fr.1 now = .ok none ∧
        SlotFits startFrom dayEnd fr.1 fr.2) := by
  unfold scheduleCore at h
  dsimp only at h
  cases hp : partitionTasks (reordered.getD parsedTasks) now dayEnd with
  | error e => rw [hp] at h; exact absurd h (by simp)
  | ok p =>
    obtain ⟨dts, ns⟩ := p
    rw [hp] at h
    simp only [Except.ok.injEq] at h
    obtain ⟨hdts, hns⟩ := partitionTasks_mem _ _ _ _ _ hp
    obtain ⟨pairsB, hB1, hB2, hB3⟩ := placeBackward_pairs startFrom (sortByDeadline dts) [] []
    obtain ⟨pairsF, hF1, hF2, hF3⟩ :=
      placeForward_pairs startFrom dayEnd ns
        (advanceCursor startFrom (merge (placeBackward startFrom (sortByDeadline dts) [] []).1))
        (merge (placeBackward startFrom (sortByDeadline dts) [] []).1)
        (placeBackward startFrom (sortByDeadline dts) [] []).2
    refine ⟨pairsB, pairsF, ?_, ?_, ?_⟩
    · subst h
      have : (placeForward startFrom dayEnd ns
          (advanceCursor startFrom (merge (placeBackward startFrom (sortByDeadline dts) [] []).1))
          (merge (placeBackward startFrom (sortByDeadline dts) [] []).1)
          (placeBackward startFrom (sortByDeadline dts) [] []).2).2 =
          pairsB.map Prod.snd ++ pairsF.map Prod.snd := by
        rw [hF1, hB1]
        simp
      rw [this] at *
      exact sortKeyed_perm _ _
    · intro pr hpr
      have hmem : pr.1 ∈ sortByDeadline dts :=
        hB2.subset (List.mem_map_of_mem Prod.fst hpr)
      have hmem' : pr.1 ∈ dts := (sortKeyed_perm _ dts).subset hmem
      exact ⟨(hdts pr.1 hmem').1, (hdts pr.1 hmem').2, hB3 pr hpr⟩
    · intro fr hfr
      have hmem : fr.1 ∈ ns := hF2.subset (List.mem_map_of_mem Prod.fst hfr)
      exact ⟨(hns fr.1 hmem).1, (hns fr.1 hmem).2, hF3 fr hfr⟩

/-! ## Deadline respect and duration fidelity -/

/-- **C4.** Every placed task that had a resolved deadline finishes by the
window-clipped deadline: the partition stage stores `min(deadline, day_end)`
with the task, and the backward search only returns slots that `_fits` with
the clipped deadline as upper bound, so the placed end is
`≤ min(deadline, windowEnd)`.  Every produced schedule splits (up to the final
display permutation) into backward-placed deadline pairs — each ending by its
clipped deadline — and forward-placed deadline-free tasks. -/
theorem deadline_respect
    (parsedTasks : List Task) (profile : Profile) (scheduleType : String)
    (now : Int) (reordered : Option (List Task)) (slots : List PlacedSlot)
    (h : scheduleSlots parsedTasks profile scheduleType now reordered = .ok slots) :
    ∃ (dayEnd : Int) (pairs : List ((Int × Task) × PlacedSlot))
      (frees : List (Task × PlacedSlot)),
      (parsedTasks = [] ∨
        (scheduleType = "work-related" ∧
          timeToDt now (profile.workEnd.getD "17:00") = some dayEnd) ∨
        (scheduleType ≠ "work-related" ∧
          dayEnd = roundUpToGrid now + 60 * PERSONAL_WINDOW_HOURS)) ∧
      List.Perm slots (pairs.map Prod.snd ++ frees.map Prod.snd) ∧
      (∀ pr ∈ pairs, pr.1.2 ∈ reordered.getD parsedTasks ∧
        ∃ dl0, resolveDeadline pr.1.2 now = .ok (some dl0) ∧
          pr.1.1 = min dl0 dayEnd ∧ pr.2.stop ≤ min dl0 dayEnd) ∧
      (∀ fr ∈ frees, fr.1 ∈ reordered.getD parsedTasks ∧
        resolveDeadline fr.1 now = .ok none) := by
  cases parsedTasks with
  | nil =>
    simp only [scheduleSlots, Except.ok.injEq] at h
    subst h
    exact ⟨0, [], [], Or.inl rfl, List.Perm.refl _,
      fun pr hpr => absurd hpr (List.not_mem_nil _),
      fun fr hfr => absurd hfr (List.not_mem_nil _)⟩
  | cons t0 ts =>
    simp only [scheduleSlots] at h
    by_cases hst : scheduleType = "work-related"
    · rw [if_pos hst] at h
      cases hdt : timeToDt now (profile.workEnd.getD "17:00") with
      | none => rw [hdt] at h; exact absurd h (by simp)
      | some d =>
        rw [hdt] at h
        dsimp only at h
        by_cases hle : d ≤ roundUpToGrid now
        · rw [if_pos hle] at h
          simp only [Except.ok.injEq] at h
          subst h
          exact ⟨d, [], [], Or.inr (Or.inl ⟨hst, rfl⟩), List.Perm.refl _,
            fun pr hpr => absurd hpr (List.not_mem_nil _),
            fun fr hfr => absurd hfr (List.not_mem_nil _)⟩
        · rw [if_neg hle] at h
          obtain ⟨pairs, frees, hperm, hp, hf⟩ := scheduleCore_spec h
          refine ⟨d, pairs, frees, Or.inr (Or.inl ⟨hst, rfl⟩), hperm, ?_, ?_⟩
          · intro pr hpr
            obtain ⟨hmem, ⟨dl0, hres, heq⟩, hsf⟩ := hp pr hpr
            exact ⟨hmem, dl0, hres, heq, by rw [← heq]; exact hsf.2.2.2.1⟩
          · intro fr hfr
            obtain ⟨hmem, hres, _⟩ := hf fr hfr
            exact ⟨hmem, hres⟩
    · rw [if_neg hst] at h
      obtain ⟨pairs, frees, hperm, hp, hf⟩ := scheduleCore_spec h
      refine ⟨roundUpToGrid now + 60 * PERSONAL_WINDOW_HOURS, pairs, frees,
        Or.inr (Or.inr ⟨hst, rfl⟩), hperm, ?_, ?_⟩
      · intro pr hpr
        obtain ⟨hmem, ⟨dl0, hres, heq⟩, hsf⟩ := hp pr hpr
        exact ⟨hmem, dl0, hres, heq, by rw [← heq]; exact hsf.2.2.2.1⟩
      · intro fr hfr
        obtain ⟨hmem, hres, _⟩ := hf fr hfr
        exact ⟨hmem, hres⟩

/-- Witness for C4: two deadline tasks (10:00 and 10:15) from 09:00, personal
window; both are placed backward and the guarantees hold at this input. -/
theorem deadline_respect_witness :
    ∃ (dayEnd : Int) (pairs : List ((Int × Task) × PlacedSlot))
      (frees : List (Task × PlacedSlot)),
      (([⟨"a", .int 30, some "10:00"⟩, ⟨"b", .int 15, some "10:15"⟩] : List Task) = [] ∨
        (("personal" : String) = "work-related" ∧
          timeToDt 540 ((Profile.mk none).workEnd.getD "17:00") = some dayEnd) ∨
        (("personal" : String) ≠ "work-related" ∧
          dayEnd = roundUpToGrid 540 + 60 * PERSONAL_WINDOW_HOURS)) ∧
      List.Perm [⟨"b", 555, 570⟩, ⟨"a", 570, 600⟩]
        (pairs.map Prod.snd ++ frees.map Prod.snd) ∧
      (∀ pr ∈ pairs,
        pr.1.2 ∈ (none : Option (List Task)).getD
          [⟨"a", .int 30, some "10:00"⟩, ⟨"b", .int 15, some "10:15"⟩] ∧
        ∃ dl0, resolveDeadline pr.1.2 540 = .ok (some dl0) ∧
          pr.1.1 = min dl0 dayEnd ∧ pr.2.stop ≤ min dl0 dayEnd) ∧
      (∀ fr ∈ frees,
        fr.1 ∈ (none : Option (List Task)).getD
          [⟨"a", .int 30, some "10:00"⟩, ⟨"b", .int 15, some "10:15"⟩] ∧
        resolveDeadline fr.1 540 = .ok none) :=
  deadline_respect [⟨"a", .int 30, some "10:00"⟩, ⟨"b", .int 15, some "10:15"⟩]
    ⟨none⟩ "personal" 540 none [⟨"b", 555, 570⟩, ⟨"a", 570, 600⟩] rfl

theorem scheduleSlots_mem_source
    {parsedTasks : List Task} {profile : Profile} {scheduleType : String}
    {now : Int} {reordered : Option (List Task)} {slots : List PlacedSlot}
    (h : scheduleSlots parsedTasks profile scheduleType now reordered = .ok slots) :
    ∀ p ∈ slots, ∃ t, t ∈ reordered.getD parsedTasks ∧
      p.description = pyStrip t.description ∧ p.stop - p.start = durationMinutes t := by
  have core : ∀ (startFrom dayEnd : Int),
      scheduleCore parsedTasks now startFrom dayEnd reordered = .ok slots →
      ∀ p ∈ slots, ∃ t, t ∈ reordered.getD parsedTasks ∧
        p.description = pyStrip t.description ∧ p.stop - p.start = durationMinutes t := by
    intro startFrom dayEnd hc p hp
    obtain ⟨pairs, frees, hperm, hpd, hfr⟩ := scheduleCore_spec hc
    have hp' := hperm.subset hp
    rcases List.mem_append.mp hp' with hmem | hmem
    · obtain ⟨pr, hpr, rfl⟩ := List.mem_map.mp hmem
      obtain ⟨htask, _, hsf⟩ := hpd pr hpr
      exact ⟨pr.1.2, htask, hsf.1, hsf.2.1⟩
    · obtain ⟨fr, hfr', rfl⟩ := List.mem_map.mp hmem
      obtain ⟨htask, _, hsf⟩ := hfr fr hfr'
      exact ⟨fr.1, htask, hsf.1, hsf.2.1⟩
  cases parsedTasks with
  | nil =>
    simp only [scheduleSlots, Except.ok.injEq] at h
    subst h
    exact fun p hp => absurd hp (List.not_mem_nil _)
  | cons t0 ts =>
    simp only [scheduleSlots] at h
    by_cases hst : scheduleType = "work-related"
    · rw [if_pos hst] at h
      cases hdt : timeToDt now (profile.workEnd.getD "17:00") with
      | none => rw [hdt] at h; exact absurd h (by simp)
      | some d =>
        rw [hdt] at h
        dsimp only at h
        by_cases hle : d ≤ roundUpToGrid now
        · rw [if_pos hle] at h
          simp only [Except.ok.injEq] at h
          subst h
          exact fun p hp => absurd hp (List.not_mem_nil _)
        · rw [if_neg hle] at h
          exact core _ _ h
    · rw [if_neg hst] at h
      exact core _ _ h

/-- **C6.** Duration fidelity: for every placed task, `end − start` is exactly
the clamped requested duration of a scheduled task bearing its (stripped)
description; `_duration_minutes` clamps every duration into `[5, 240]` and
coerces the labels short/medium/long to 15/30/60 minutes. -/
theorem duration_fidelity
    (parsedTasks : List Task) (profile : Profile) (scheduleType : String)
    (now : Int) (reordered : Option (List Task)) (slots : List PlacedSlot)
    (h : scheduleSlots parsedTasks profile scheduleType now reordered = .ok slots) :
    (∀ p ∈ slots, ∃ t, t ∈ reordered.getD parsedTasks ∧
      p.description = pyStrip t.description ∧ p.stop - p.start = durationMinutes t) ∧
    (∀ t : Task, 5 ≤ durationMinutes t ∧ durationMinutes t ≤ 240) ∧
    (∀ (d : String) (dl : Option String),
      durationMinutes ⟨d, .str "short", dl⟩ = 15 ∧
      durationMinutes ⟨d, .str "medium", dl⟩ = 30 ∧
      durationMinutes ⟨d, .str "long", dl⟩ = 60) := by
  refine ⟨scheduleSlots_mem_source h, ?_, ?_⟩
  · intro t
    unfold durationMinutes
    exact ⟨le_max_left _ _, max_le (by norm_num) (min_le_right _ _)⟩
  · intro d dl
    exact ⟨rfl, rfl, rfl⟩

/-- Witness for C6 at the Scenario A input. -/
theorem duration_fidelity_witness :
    (∀ p ∈ ([⟨"a", 540, 570⟩, ⟨"b", 585, 630⟩] : List PlacedSlot),
      ∃ t, t ∈ (none : Option (List Task)).getD
          [⟨"a", .int 30, none⟩, ⟨"b", .int 45, none⟩] ∧
        p.description = pyStrip t.description ∧ p.stop - p.start = durationMinutes t) ∧
    (∀ t : Task, 5 ≤ durationMinutes t ∧ durationMinutes t ≤ 240) ∧
    (∀ (d : String) (dl : Option String),
      durationMinutes ⟨d, .str "short", dl⟩ = 15 ∧
      durationMinutes ⟨d, .str "medium", dl⟩ = 30 ∧
      durationMinutes ⟨d, .str "long", dl⟩ = 60) :=
  duration_fidelity [⟨"a", .int 30, none⟩, ⟨"b", .int 45, none⟩] ⟨none⟩ "personal" 540 none
    [⟨"a", 540, 570⟩, ⟨"b", 585, 630⟩] rfl

/-! ## No-overlap of placed slots -/

/-- `t` lies in the half-open interval `iv`. -/
def memPt (t : Int) (iv : Interval) : Prop := iv.1 ≤ t ∧ t < iv.2

/-- Two half-open intervals share at least one minute. -/
def Overlaps (a b : Interval) : Prop := max a.1 b.1 < min a.2 b.2

instance (a b : Interval) : Decidable (Overlaps a b) := by
  unfold Overlaps; infer_instance

theorem overlaps_iff {a b : Interval} : Overlaps a b ↔ ∃ t, memPt t a ∧ memPt t b := by
  unfold Overlaps memPt
  constructor
  · intro h; exact ⟨max a.1 b.1, by omega, by omega⟩
  · rintro ⟨t, h1, h2⟩; omega

/-- Some interval of `occ` contains the minute `t`. -/
def coversPt (occ : List Interval) (t : Int) : Prop := ∃ iv ∈ occ, memPt t iv

theorem coversPt_mono {occ occ' : List Interval} (hsub : ∀ iv ∈ occ, iv ∈ occ') {t : Int}
    (h : coversPt occ t) : coversPt occ' t := by
  obtain ⟨iv, hiv, hm⟩ := h
  exact ⟨iv, hsub iv hiv, hm⟩

theorem mergeLoop_covers :
    ∀ (l : List Interval) (cur : Interval),
      (∀ iv ∈ l, cur.1 ≤ iv.1) → l.Pairwise (fun a b => a.1 ≤ b.1) →
      ∀ t, coversPt (cur :: l) t → coversPt (mergeLoop cur l) t := by
  intro l
  induction l with
  | nil => intro cur _ _ t h; simpa [mergeLoop] using h
  | cons iv rest ih =>
    intro cur hcur hpw t h
    rw [List.pairwise_cons] at hpw
    obtain ⟨hivle, hrest⟩ := hpw
    unfold mergeLoop
    by_cases hle : iv.1 ≤ cur.2
    · rw [if_pos hle]
      apply ih (cur.1, max cur.2 iv.2) (fun jv hjv => hcur jv (List.mem_cons_of_mem _ hjv))
        hrest t
      obtain ⟨jv, hjv, hm⟩ := h
      rcases List.mem_cons.mp hjv with rfl | hjv'
      · refine ⟨(jv.1, max jv.2 iv.2), List.mem_cons_self _ _, ?_⟩
        unfold memPt at hm ⊢
        constructor
        · exact hm.1
        · exact lt_max_of_lt_left hm.2
      rcases List.mem_cons.mp hjv' with rfl | hjv''
      · refine ⟨(cur.1, max cur.2 jv.2), List.mem_cons_self _ _, ?_⟩
        unfold memPt at hm ⊢
        constructor
        · exact le_trans (hcur jv (List.mem_cons_self _ _)) hm.1
        · exact lt_max_of_lt_right hm.2
      · exact ⟨jv, List.mem_cons_of_mem _ hjv'', hm⟩
    · rw [if_neg hle]
      obtain ⟨jv, hjv, hm⟩ := h
      rcases List.mem_cons.mp hjv with rfl | hjv'
      · exact ⟨jv, List.mem_cons_self _ _, hm⟩
      · have hrec : coversPt (mergeLoop iv rest) t :=
          ih iv (fun kv hkv => hivle kv hkv) hrest t ⟨jv, hjv', hm⟩
        obtain ⟨kv, hkv, hk⟩ := hrec
        exact ⟨kv, List.mem_cons_of_mem _ hkv, hk⟩

theorem merge_covers (occ : List Interval) (t : Int) (h : coversPt occ t) :
    coversPt (merge occ) t := by
  unfold merge
  have h' : coversPt (sortByStart occ) t := by
    obtain ⟨iv, hiv, hm⟩ := h
    unfold sortByStart
    exact ⟨iv, (sortKeyed_perm (fun x => x.1) occ).mem_iff.mpr hiv, hm⟩
  have hpw : (sortByStart occ).Pairwise (fun a b => a.1 ≤ b.1) := by
    unfold sortByStart
    exact sortKeyed_pairwise (fun x => x.1) occ
  cases hs : sortByStart occ with
  | nil =>
    rw [hs] at h'
    obtain ⟨iv, hiv, _⟩ := h'
    exact absurd hiv (List.not_mem_nil _)
  | cons iv rest =>
    rw [hs] at h' hpw
    rw [List.pairwise_cons] at hpw
    exact mergeLoop_covers rest iv hpw.1 hpw.2 t h'

theorem fits_disjoint_coversPt {s e : Int} {occ : List Interval} {ds de : Int}
    (h : fits s e occ ds de = true) (t : Int) (hm : memPt t (s, e)) : ¬ coversPt occ t := by
  obtain ⟨_, _, _, hall⟩ := fits_spec h
  rintro ⟨iv, hiv, hmem⟩
  unfold memPt at hm hmem
  rcases hall iv hiv with h' | h' <;> omega

/-- All minutes of all committed placements lie inside the occupied set. -/
def SlotsCovered (occ : List Interval) (placed : List PlacedSlot) : Prop :=
  ∀ p ∈ placed, ∀ t, memPt t (p.start, p.stop) → coversPt occ t

/-- Task intervals of two placements do not overlap (breaks not included). -/
def slotDisj (p q : PlacedSlot) : Prop := ¬ Overlaps (p.start, p.stop) (q.start, q.stop)

theorem placeBackward_invariant (startFrom : Int) :
    ∀ (dts : List (Int × Task)) (occ : List Interval) (placed : List PlacedSlot),
      SlotsCovered occ placed → placed.Pairwise slotDisj →
      SlotsCovered (placeBackward startFrom dts occ placed).1
          (placeBackward startFrom dts occ placed).2 ∧
      (placeBackward startFrom dts occ placed).2.Pairwise slotDisj := by
  intro dts
  induction dts with
  | nil =>
    intro occ placed h1 h2
    exact ⟨h1, h2⟩
  | cons hd rest ih =>
    intro occ placed h1 h2
    obtain ⟨dl, tk⟩ := hd
    cases hslot : findBackwardSlot dl (durationMinutes tk) (merge occ) startFrom with
    | none =>
      unfold placeBackward
      rw [hslot]
      exact ih occ placed h1 h2
    | some se =>
      obtain ⟨s, e⟩ := se
      have hslot' : findBackwardAux (durationMinutes tk) (merge occ) startFrom dl
          (roundDownToGrid dl) (12 * 4 + 1) = some (s, e) := hslot
      obtain ⟨hfit, _⟩ := findBackwardAux_fits _ _ _ _ hslot'
      unfold placeBackward
      rw [hslot]
      apply ih
      · intro p hp t hm
        rcases List.mem_append.mp hp with hp' | hp'
        · exact coversPt_mono (fun iv hiv => List.mem_append_left _ hiv) (h1 p hp' t hm)
        · rw [List.mem_singleton] at hp'
          subst hp'
          exact ⟨(s, e), by simp [addWithBreak], hm⟩
      · rw [List.pairwise_append]
        refine ⟨h2, ?_, ?_⟩
        · exact List.Pairwise.cons (fun b hb => absurd hb (List.not_mem_nil _)) List.Pairwise.nil
        · intro p hp q hq
          rw [List.mem_singleton] at hq
          subst hq
          intro hov
          obtain ⟨t, hmp, hmn⟩ := overlaps_iff.mp hov
          exact fits_disjoint_coversPt hfit t hmn (merge_covers occ t (h1 p hp t hmp))

theorem placeForward_invariant (ds de : Int) :
    ∀ (ts : List Task) (cursor : Int) (occ : List Interval) (placed : List PlacedSlot),
      SlotsCovered occ placed → placed.Pairwise slotDisj →
      SlotsCovered (placeForward ds de ts cursor occ placed).1
          (placeForward ds de ts cursor occ placed).2 ∧
      (placeForward ds de ts cursor occ placed).2.Pairwise slotDisj := by
  intro ts
  induction ts with
  | nil =>
    intro cursor occ placed h1 h2
    exact ⟨h1, h2⟩
  | cons tk rest ih =>
    intro cursor occ placed h1 h2
    cases hslot : findForwardSlot cursor (durationMinutes tk) occ ds de with
    | none =>
      unfold placeForward
      rw [hslot]
      exact ⟨h1, h2⟩
    | some se =>
      obtain ⟨s, e⟩ := se
      have hslot' : findForwardAux (durationMinutes tk) occ ds de
          (roundUpToGrid (max cursor ds)) (12 * 4 + 1) = some (s, e) := hslot
      obtain ⟨hfit, _⟩ := findForwardAux_fits _ _ _ _ hslot'
      have hcov' : SlotsCovered (merge (addWithBreak occ s e))
          (placed ++ [PlacedSlot.mk (pyStrip tk.description) s e]) := by
        intro p hp t hm
        refine merge_covers (addWithBreak occ s e) t ?_
        rcases List.mem_append.mp hp with hp' | hp'
        · exact coversPt_mono (fun iv hiv => List.mem_append_left _ hiv) (h1 p hp' t hm)
        · rw [List.mem_singleton] at hp'
          subst hp'
          exact ⟨(s, e), by simp [addWithBreak], hm⟩
      have hdisj' : (placed ++ [PlacedSlot.mk (pyStrip tk.description) s e]).Pairwise slotDisj := by
        rw [List.pairwise_append]
        refine ⟨h2, ?_, ?_⟩
        · exact List.Pairwise.cons (fun b hb => absurd hb (List.not_mem_nil _)) List.Pairwise.nil
        · intro p hp q hq
          rw [List.mem_singleton] at hq
          subst hq
          intro hov
          obtain ⟨t, hmp, hmn⟩ := overlaps_iff.mp hov
          exact fits_disjoint_coversPt hfit t hmn (h1 p hp t hmp)
      unfold placeForward
      rw [hslot]
      dsimp only
      by_cases hc : e + FORCED_BREAK_MIN ≥ de
      · rw [if_pos hc]
        exact ⟨hcov', hdisj'⟩
      · rw [if_neg hc]
        exact ih _ _ _ hcov' hdisj'

theorem scheduleCore_disjoint {parsedTasks : List Task} {now startFrom dayEnd : Int}
    {reordered : Option (List Task)} {slots : List PlacedSlot}
    (h : scheduleCore parsedTasks now startFrom dayEnd reordered = .ok slots) :
    slots.Pairwise slotDisj := by
  unfold scheduleCore at h
  dsimp only at h
  cases hp : partitionTasks (reordered.getD parsedTasks) now dayEnd with
  | error e => rw [hp] at h; exact absurd h (by simp)
  | ok p =>
    obtain ⟨dts, ns⟩ := p
    rw [hp] at h
    simp only [Except.ok.injEq] at h
    subst h
    obtain ⟨hcovB, hdisjB⟩ := placeBackward_invariant startFrom (sortByDeadline dts) [] []
        (fun p hp => absurd hp (List.not_mem_nil _)) List.Pairwise.nil
    have hcovB' : SlotsCovered (merge (placeBackward startFrom (sortByDeadline dts) [] []).1)
        (placeBackward startFrom (sortByDeadline dts) [] []).2 :=
      fun p hp t hm => merge_covers _ t (hcovB p hp t hm)
    obtain ⟨_, hdisjF⟩ := placeForward_invariant startFrom dayEnd ns
      (advanceCursor startFrom (merge (placeBackward startFrom (sortByDeadline dts) [] []).1))
      (merge (placeBackward startFrom (sortByDeadline dts) [] []).1)
      (placeBackward startFrom (sortByDeadline dts) [] []).2 hcovB' hdisjB
    have hsymm : ∀ {x y : PlacedSlot}, slotDisj x y → slotDisj y x := by
      intro x y hxy hov
      exact hxy (by unfold Overlaps at hov ⊢; omega)
    exact hdisjF.perm (sortKeyed_perm _ _).symm hsymm

/-- Branch skeleton of `scheduleSlots`: a successful run either returned one
of the two early `[]` results or went through `scheduleCore`. -/
theorem scheduleSlots_cases {parsedTasks : List Task} {profile : Profile}
    {scheduleType : String} {now : Int} {reordered : Option (List Task)}
    {slots : List PlacedSlot}
    (h : scheduleSlots parsedTasks profile scheduleType now reordered = .ok slots) :
    slots = [] ∨ ∃ dayEnd,
      scheduleCore parsedTasks now (roundUpToGrid now) dayEnd reordered = .ok slots := by
  cases parsedTasks with
  | nil =>
    simp only [scheduleSlots, Except.ok.injEq] at h
    exact Or.inl h.symm
  | cons t0 ts =>
    simp only [scheduleSlots] at h
    by_cases hst : scheduleType = "work-related"
    · rw [if_pos hst] at h
      cases hdt : timeToDt now (profile.workEnd.getD "17:00") with
      | none => rw [hdt] at h; exact absurd h (by simp)
      | some d =>
        rw [hdt] at h
        dsimp only at h
        by_cases hle : d ≤ roundUpToGrid now
        · rw [if_pos hle] at h
          simp only [Except.ok.injEq] at h
          exact Or.inl h.symm
        · rw [if_neg hle] at h
          exact Or.inr ⟨d, h⟩
    · rw [if_neg hst] at h
      exact Or.inr ⟨_, h⟩

/-- **C1 amended.** In every produced schedule the placed *task* intervals are
pairwise disjoint: each committed slot passes `_fits` against the merged
occupied set (which covers every earlier task and break), so no two placed
tasks share a minute.  The implicit trailing breaks are *not* pairwise
disjoint from everything — `_add_with_break` appends the break without any
overlap check, and a later backward placement may end exactly where an earlier
task starts, putting its break inside that task (see the counterexample) —
which is the one part of the original claim that fails. -/
theorem placed_tasks_disjoint
    (parsedTasks : List Task) (profile : Profile) (scheduleType : String)
    (now : Int) (reordered : Option (List Task)) (slots : List PlacedSlot)
    (h : scheduleSlots parsedTasks profile scheduleType now reordered = .ok slots) :
    slots.Pairwise (fun p q => ¬ Overlaps (p.start, p.stop) (q.start, q.stop)) := by
  rcases scheduleSlots_cases h with rfl | ⟨dayEnd, hcore⟩
  · exact List.Pairwise.nil
  · exact scheduleCore_disjoint hcore

/-- Witness for C1 (amended), at the two-deadline-task input of the
counterexample: the two placed task intervals are disjoint. -/
theorem placed_tasks_disjoint_witness :
    ([⟨"b", 555, 570⟩, ⟨"a", 570, 600⟩] : List PlacedSlot).Pairwise
      (fun p q => ¬ Overlaps (p.start, p.stop) (q.start, q.stop)) :=
  placed_tasks_disjoint [⟨"a", .int 30, some "10:00"⟩, ⟨"b", .int 15, some "10:15"⟩]
    ⟨none⟩ "personal" 540 none _ rfl

/-- The intervals of a schedule together with each placement's implicit
trailing 5-minute break, as `_add_with_break` would commit them. -/
def withBreaks (placed : List PlacedSlot) : List Interval :=
  placed.flatMap (fun p => [(p.start, p.stop), (p.stop, p.stop + FORCED_BREAK_MIN)])

/-- **C1 counterexample.** From 09:00 (personal window), tasks
`a` (30 min, deadline 10:00) and `b` (15 min, deadline 10:15): `a` is placed
09:30–10:00 first; `b`'s backward search then lands on 09:15–09:30, and
`_add_with_break` appends `b`'s break 09:30–09:35 with no overlap check — it
overlaps `a`'s task interval 09:30–10:00.  So the intervals including the
implicit trailing breaks are *not* pairwise disjoint, refuting the claim as
stated. -/
theorem break_overlap_counterexample :
    scheduleSlots [⟨"a", .int 30, some "10:00"⟩, ⟨"b", .int 15, some "10:15"⟩]
        ⟨none⟩ "personal" 540 none = .ok [⟨"b", 555, 570⟩, ⟨"a", 570, 600⟩] ∧
    ¬ (withBreaks [⟨"b", 555, 570⟩, ⟨"a", 570, 600⟩]).Pairwise
        (fun a b => ¬ Overlaps a b) :=
  ⟨rfl, by decide⟩

/-! ## Order of the returned list -/

theorem scheduleCore_sortedTod {parsedTasks : List Task} {now startFrom dayEnd : Int}
    {reordered : Option (List Task)} {slots : List PlacedSlot}
    (h : scheduleCore parsedTasks now startFrom dayEnd reordered = .ok slots) :
    slots.Pairwise (fun p q => p.start % 1440 ≤ q.start % 1440) := by
  unfold scheduleCore at h
  dsimp only at h
  cases hp : partitionTasks (reordered.getD parsedTasks) now dayEnd with
  | error e => rw [hp] at h; exact absurd h (by simp)
  | ok p =>
    obtain ⟨dts, ns⟩ := p
    rw [hp] at h
    simp only [Except.ok.injEq] at h
    subst h
    exact sortKeyed_pairwise _ _

/-- **C8 amended.** The returned list is sorted ascending by the *time of day*
of the start timestamp (`start mod 1440`): the final sort key is
`strptime(start_time, "%I:%M %p")`, which recovers only the clock time from
the formatted string.  When the window does not cross midnight this coincides
with chronological order of the actual placement timestamps; when the personal
window crosses midnight it does not (see the counterexample). -/
theorem output_sorted_by_time_of_day
    (parsedTasks : List Task) (profile : Profile) (scheduleType : String)
    (now : Int) (reordered : Option (List Task)) (slots : List PlacedSlot)
    (h : scheduleSlots parsedTasks profile scheduleType now reordered = .ok slots) :
    slots.Pairwise (fun p q => p.start % 1440 ≤ q.start % 1440) := by
  rcases scheduleSlots_cases h with rfl | ⟨dayEnd, hcore⟩
  · exact List.Pairwise.nil
  · exact scheduleCore_sortedTod hcore

/-- Witness for C8 (amended) at the midnight-crossing input. -/
theorem output_sorted_witness :
    ([⟨"b", 1455, 1485⟩, ⟨"a", 1320, 1440⟩] : List PlacedSlot).Pairwise
      (fun p q => p.start % 1440 ≤ q.start % 1440) :=
  output_sorted_by_time_of_day [⟨"a", .int 120, none⟩, ⟨"b", .int 30, none⟩]
    ⟨none⟩ "personal" 1320 none _ rfl

/-- **C8 counterexample.** Personal window from 22:00 (crossing midnight),
tasks of 120 and 30 minutes: the second task is placed 00:15–00:45 the next
day, *after* the first (22:00–00:00), but the final sort parses the formatted
start strings as bare clock times, so the output lists the 00:15 placement
first — the returned list is not sorted by the actual placement timestamps
(`1455 > 1320` yet its slot comes first). -/
theorem midnight_sort_counterexample :
    scheduleSlots [⟨"a", .int 120, none⟩, ⟨"b", .int 30, none⟩] ⟨none⟩ "personal" 1320 none
      = .ok [⟨"b", 1455, 1485⟩, ⟨"a", 1320, 1440⟩] ∧ (1320 : Int) < 1455 :=
  ⟨rfl, by decide⟩

end TaskMate
